import Mathlib

/-!
Verification of the starlight TLS-certificate batch checker (src/checker.go).

The Go program answers, for a batch of domain names, how many days remain
until each domain's TLS certificate expires.  Its core is:

* `SafeMap` (checker.go lines 20–37): a map from domain to result string
  guarded by a single mutex, with `Ins` (overwriting insert) and
  `Retrieve` (read, zero value `""` if absent);
* `checkDomain` (lines 39–53): one TLS probe, returning either the error
  text on dial failure or the day count until the leaf certificate's
  `NotAfter`, formatted with `strconv.FormatFloat(_, 'f', 0, 64)`;
* `processBatch` (lines 55–73): launches one goroutine per domain of a
  group, each writing `Ins(domain, checkDomain(domain))`, and waits on a
  `sync.WaitGroup` barrier for the whole group;
* `checker` (lines 75–86): walks the input list in steps of the constant
  `concurrent = 10`, running `processBatch` on each consecutive slice and
  sharing one output map across all groups.

Embedding choices, stated once here:

* The Go map is embedded as an association list `GoMap` whose insert
  removes any older binding of the key, matching Go map overwrite
  semantics for lookup, key set and entry count.  The mutex is elided:
  the lock makes the concurrent inserts of a group atomic and serial, so
  a group's effect on the map is a sequence of inserts in goroutine
  completion order.  That order is the only scheduler-visible
  nondeterminism; it is modelled explicitly by `checkerSched`, which
  takes one completion order per group, constrained by `ScheduleFor` to
  be a permutation of that group.  `checker`/`checkerLoop` is the direct
  transcription of the Go loop (one particular schedule: input order).
* The network is a parameter: `checkDomain` takes the dialer as a
  function from address to either an error text or a connection state
  (Go `tls.Dial` returning `(conn, err)`), and `processBatch`/`checker`
  take the probe `String → String` in place of the closed-over
  `checkDomain`.  `log.Print` and `fmt.Println` are side effects with no
  bearing on the results and are dropped.
* Go `time.Time`/`Duration` arithmetic is in integer nanoseconds, which
  is exact (`Int` here, so without `time.Time.Sub`'s saturation at the
  int64 bounds, which no realistic certificate lifetime reaches).
-/

/-- Go: `const concurrent = 10` (checker.go line 18). -/
def concurrent : Nat := 10

/-- The Go `map[string]string` embedded as an association list: most
recent binding first, older bindings of a key removed on insert. -/
abbrev GoMap := List (String × String)

/-- Lookup in a `GoMap`: first binding of the key, if any.  Models Go
map indexing `m[key]` together with presence (`none` = key absent). -/
def mapFind : GoMap → String → Option String
  | [], _ => none
  | (k, v) :: rest, key => if k = key then some v else mapFind rest key

/-- Remove every binding of `key`.  Auxiliary to keep `GoMap` keys
duplicate-free, matching Go map overwrite on insert. -/
def eraseKey : GoMap → String → GoMap
  | [], _ => []
  | (k, v) :: rest, key =>
      if k = key then eraseKey rest key else (k, v) :: eraseKey rest key

/-- The key list of a `GoMap` (Go: the map's key set). -/
def mapKeys (m : GoMap) : List String := m.map Prod.fst

/-- Go: `type SafeMap struct { v map[string]string; mux sync.Mutex }`
(checker.go lines 20–23).  The mutex is elided; see the file notes. -/
structure SafeMap where
  v : GoMap

/-- Go: `func (results *SafeMap) Ins(key string, value string)`
(checker.go lines 25–30): under the lock, `results.v[key] = value`,
overwriting any existing binding of `key`. -/
def SafeMap.Ins (results : SafeMap) (key value : String) : SafeMap :=
  ⟨(key, value) :: eraseKey results.v key⟩

/-- Go: `func (results *SafeMap) Retrieve(key string) string`
(checker.go lines 32–37): under the lock, `return results.v[key]`; a Go
map read of an absent key yields the zero value `""`. -/
def SafeMap.Retrieve (results : SafeMap) (key : String) : String :=
  (mapFind results.v key).getD ""

/-- One peer certificate; only the `NotAfter` expiry instant is read by
the program.  Measured in integer nanoseconds since the epoch, matching
Go `time.Time`'s internal resolution. -/
structure Certificate where
  notAfter : Int

/-- The part of Go `tls.ConnectionState()` the program reads: the peer
certificate chain, leaf first (checker.go line 48). -/
structure ConnState where
  peerCertificates : List Certificate

/-- Round the exact quotient `num / den` (with `den > 0`) to the nearest
integer, ties to even.  This is the rounding
`strconv.FormatFloat(x, 'f', 0, 64)` applies to the value `x` (Go
formats the exact binary value of the float and rounds its decimal
expansion to zero fractional digits, ties to even).  `Int.ediv`/
`Int.emod` is floor division with remainder in `[0, den)` for positive
`den`, so comparing twice the remainder against `den` classifies the
fractional part against one half. -/
def roundHalfEven (num den : Int) : Int :=
  if 2 * Int.emod num den < den then Int.ediv num den
  else if den < 2 * Int.emod num den then Int.ediv num den + 1
  else if Int.emod (Int.ediv num den) 2 = 0 then Int.ediv num den
  else Int.ediv num den + 1

/-- Nanoseconds per day: the divisor in
`cert.NotAfter.Sub(timeNow).Hours()/24` once `Hours()`'s nanoseconds are
made explicit (24 h × 3600 s × 10⁹ ns). -/
def nsPerDay : Int := 86400000000000

/-- Go (checker.go line 50):
`strconv.FormatFloat(cert.NotAfter.Sub(timeNow).Hours()/24, 'f', 0, 64)`
on a duration of `ns` nanoseconds.  Modelled in exact integer
arithmetic: the float64 pipeline `Duration.Hours()/24` computes
`ns / nsPerDay` up to float rounding, and `FormatFloat 'f' 0` rounds the
result to the nearest integer, ties to even, keeping the sign of the
float (so a negative value rounding to zero prints `"-0"`).  The model
agrees with the float computation whenever the intermediate float64
values are exact, as they are at every input used in the theorems below
(durations that are a whole number of hours with a day count whose
binary representation is exact). -/
def formatFloatDays (ns : Int) : String :=
  let r := roundHalfEven ns nsPerDay
  if r = 0 ∧ ns < 0 then "-0" else toString r

/-- Go: `func checkDomain(domain string) string` (checker.go lines
39–53), with the dialer `tls.Dial("tcp", host, nil)` abstracted as a
parameter.  On error: log (dropped) and return `err.Error()`.  On
success: read the leaf certificate and format the days to expiry.  A Go
handshake always yields a non-empty chain; the impossible empty-chain
case (a Go index panic) is mapped to `""`. -/
def checkDomain (dial : String → Except String ConnState) (now : Int)
    (domain : String) : String :=
  let host := domain ++ ":443"
  match dial host with
  | Except.error err => err
  | Except.ok conn =>
    match conn.peerCertificates with
    | [] => ""
    | cert :: _ => formatFloatDays (cert.notAfter - now)

/-- Go: `func processBatch(domains []string, output map[string]string)`
(checker.go lines 55–73) with the probe abstracted: wrap `output` in a
`SafeMap`, insert `(domain, probe domain)` for each domain of the group,
return once all are done (the `WaitGroup` barrier).  The fold order is
the goroutine completion order; `checkerSched` quantifies over it. -/
def processBatch (probe : String → String) (domains : List String)
    (output : GoMap) : GoMap :=
  (domains.foldl (fun results domain => results.Ins domain (probe domain))
    (SafeMap.mk output)).v

/-- The loop of Go `checker` (checker.go lines 78–84):
`for i := 0; i < len(domainsList); i += concurrent`, processing
`domainsList[i:]` for the final short group and
`domainsList[i : i+concurrent]` otherwise, all groups sharing `output`. -/
def checkerLoop (probe : String → String) (domainsList : List String)
    (i : Nat) (output : GoMap) : GoMap :=
  if i < domainsList.length then
    if i + concurrent > domainsList.length then
      checkerLoop probe domainsList (i + concurrent)
        (processBatch probe (domainsList.drop i) output)
    else
      checkerLoop probe domainsList (i + concurrent)
        (processBatch probe ((domainsList.drop i).take concurrent) output)
  else output
termination_by domainsList.length - i
decreasing_by
  all_goals simp only [concurrent] at *; omega

/-- Go: `func checker(domainsList []string) map[string]string`
(checker.go lines 75–86): start from the empty map
(`output := make(map[string]string)`) and run the loop. -/
def checker (probe : String → String) (domainsList : List String) : GoMap :=
  checkerLoop probe domainsList 0 []

/-- The consecutive groups the `checker` loop slices off: groups of
`concurrent` domains, the last group holding the remainder. -/
def chunks (l : List String) : List (List String) :=
  if l.isEmpty then [] else l.take concurrent :: chunks (l.drop concurrent)
termination_by l.length
decreasing_by
  simp only [concurrent, List.length_drop]
  cases l with
  | nil => simp [List.isEmpty] at *
  | cons a t => simp; omega

/-- `checker` under an explicit scheduler: one goroutine completion
order per group, groups still strictly sequential (the `WaitGroup`
barrier).  `checkerSched probe sched []` with `ScheduleFor sched l` is
the outcome of one real execution of `checker` on `l`. -/
def checkerSched (probe : String → String) :
    List (List String) → GoMap → GoMap
  | [], output => output
  | ord :: rest, output => checkerSched probe rest (processBatch probe ord output)

/-- A schedule for input `l`: one completion order per group of
`chunks l`, each a permutation of its group. -/
def ScheduleFor (sched : List (List String)) (l : List String) : Prop :=
  List.Forall₂ (fun ord c => ord.Perm c) sched (chunks l)

/-- The spec's words for the probe's day formatting: `(notAfter - now) /
24h` as a base-10 integer, "rounding toward zero" (truncation).  Stated
only to be compared with the source's `formatFloatDays`. -/
def formatDaysTruncSpec (ns : Int) : String :=
  toString (Int.tdiv ns nsPerDay)

/-! ### Map lemmas -/

theorem mapFind_eraseKey (m : GoMap) (k key : String) :
    mapFind (eraseKey m key) k = if k = key then none else mapFind m k := by
  induction m with
  | nil => simp [eraseKey, mapFind]
  | cons p rest ih =>
    obtain ⟨k', v'⟩ := p
    by_cases h : k' = key
    · subst h
      rw [eraseKey, if_pos rfl, ih]
      by_cases hk : k = k'
      · simp [hk]
      · simp only [mapFind, ih, if_neg hk]
        rw [if_neg (fun hc : k' = k => hk hc.symm)]
    · rw [eraseKey, if_neg h, mapFind, mapFind]
      by_cases hk : k' = k
      · subst hk
        simp [fun hc : k' = key => h hc]
      · simp [hk, ih]

theorem mapFind_Ins (m : SafeMap) (key value k : String) :
    mapFind (m.Ins key value).v k =
      if k = key then some value else mapFind m.v k := by
  simp only [SafeMap.Ins, mapFind]
  by_cases h : k = key
  · simp [h]
  · rw [if_neg (fun hk : key = k => h hk.symm), if_neg h, mapFind_eraseKey,
      if_neg h]

theorem mem_mapKeys_iff (m : GoMap) (k : String) :
    k ∈ mapKeys m ↔ mapFind m k ≠ none := by
  induction m with
  | nil => simp [mapKeys, mapFind]
  | cons p rest ih =>
    obtain ⟨k', v'⟩ := p
    by_cases h : k' = k
    · subst h; simp [mapKeys, mapFind]
    · simp [mapKeys, mapFind, h, Ne.symm h] at ih ⊢
      exact ih

theorem mem_mapKeys_eraseKey (m : GoMap) (key k : String) :
    k ∈ mapKeys (eraseKey m key) ↔ k ∈ mapKeys m ∧ k ≠ key := by
  rw [mem_mapKeys_iff, mem_mapKeys_iff, mapFind_eraseKey]
  by_cases h : k = key <;> simp [h]

theorem mapKeys_nodup_eraseKey (m : GoMap) (key : String)
    (h : (mapKeys m).Nodup) : (mapKeys (eraseKey m key)).Nodup := by
  induction m with
  | nil => simpa [eraseKey] using h
  | cons p rest ih =>
    obtain ⟨k', v'⟩ := p
    simp only [mapKeys, List.map_cons, List.nodup_cons] at h
    by_cases hk : k' = key
    · simpa [eraseKey, hk] using ih h.2
    · simp only [eraseKey, hk, if_false, mapKeys, List.map_cons,
        List.nodup_cons]
      refine ⟨fun hmem => ?_, ih h.2⟩
      exact h.1 ((mem_mapKeys_eraseKey rest key k').mp hmem).1

theorem mapKeys_nodup_Ins (m : SafeMap) (key value : String)
    (h : (mapKeys m.v).Nodup) : (mapKeys (m.Ins key value).v).Nodup := by
  simp only [SafeMap.Ins, mapKeys, List.map_cons, List.nodup_cons]
  refine ⟨fun hmem => ?_, mapKeys_nodup_eraseKey m.v key h⟩
  exact ((mem_mapKeys_eraseKey m.v key key).mp hmem).2 rfl

/-! ### Batch and scheduler lemmas -/

theorem processBatch_cons (probe : String → String) (d : String)
    (rest : List String) (out : GoMap) :
    processBatch probe (d :: rest) out =
      processBatch probe rest ((SafeMap.mk out).Ins d (probe d)).v := rfl

theorem mapFind_processBatch (probe : String → String) (ord : List String)
    (out : GoMap) (k : String) :
    mapFind (processBatch probe ord out) k =
      if k ∈ ord then some (probe k) else mapFind out k := by
  induction ord generalizing out with
  | nil => simp [processBatch]
  | cons d rest ih =>
    rw [processBatch_cons, ih]
    by_cases hrest : k ∈ rest
    · simp [hrest]
    · rw [if_neg hrest, mapFind_Ins]
      by_cases hd : k = d
      · simp [hd]
      · simp [hd, hrest]

theorem mapKeys_nodup_processBatch (probe : String → String)
    (ord : List String) (out : GoMap) (h : (mapKeys out).Nodup) :
    (mapKeys (processBatch probe ord out)).Nodup := by
  induction ord generalizing out with
  | nil => simpa [processBatch] using h
  | cons d rest ih =>
    rw [processBatch_cons]
    exact ih _ (mapKeys_nodup_Ins (SafeMap.mk out) d (probe d) h)

theorem chunks_nil : chunks [] = [] := by
  rw [chunks]; rfl

theorem chunks_cons (l : List String) (h : l ≠ []) :
    chunks l = l.take concurrent :: chunks (l.drop concurrent) := by
  rw [chunks, if_neg (by simpa [List.isEmpty_iff] using h)]

theorem chunks_eq_nil_iff (l : List String) : chunks l = [] ↔ l = [] := by
  constructor
  · intro h
    by_contra hne
    rw [chunks_cons l hne] at h
    exact List.cons_ne_nil _ _ h
  · intro h; subst h; exact chunks_nil

theorem mapFind_checkerSched (probe : String → String)
    (sched : List (List String)) (l : List String) (out : GoMap)
    (h : ScheduleFor sched l) (k : String) :
    mapFind (checkerSched probe sched out) k =
      if k ∈ l then some (probe k) else mapFind out k := by
  induction sched generalizing l out with
  | nil =>
    have hl : l = [] := by
      rw [ScheduleFor] at h
      cases hc : chunks l with
      | nil => exact (chunks_eq_nil_iff l).mp hc
      | cons a t => rw [hc] at h; cases h
    subst hl
    simp [checkerSched]
  | cons ord rest ih =>
    have hne : l ≠ [] := by
      intro hl; subst hl
      rw [ScheduleFor, chunks_nil] at h
      cases h
    rw [ScheduleFor, chunks_cons l hne] at h
    cases h with
    | cons hperm hrest =>
      rw [checkerSched, ih (l.drop concurrent) _ hrest]
      by_cases hdrop : k ∈ l.drop concurrent
      · rw [if_pos hdrop, if_pos]
        exact List.mem_of_mem_drop hdrop
      · rw [if_neg hdrop, mapFind_processBatch]
        have hmem : k ∈ ord ↔ k ∈ l.take concurrent := hperm.mem_iff
        by_cases htake : k ∈ l.take concurrent
        · rw [if_pos (hmem.mpr htake), if_pos (List.mem_of_mem_take htake)]
        · rw [if_neg (fun hc => htake (hmem.mp hc)), if_neg]
          intro hl
          rcases (List.mem_append.mp
            (by rw [List.take_append_drop] at *; exact hl :
              k ∈ l.take concurrent ++ l.drop concurrent)) with h1 | h1
          · exact htake h1
          · exact hdrop h1

theorem mapKeys_nodup_checkerSched (probe : String → String)
    (sched : List (List String)) (out : GoMap)
    (h : (mapKeys out).Nodup) :
    (mapKeys (checkerSched probe sched out)).Nodup := by
  induction sched generalizing out with
  | nil => simpa [checkerSched] using h
  | cons ord rest ih =>
    rw [checkerSched]
    exact ih _ (mapKeys_nodup_processBatch probe ord out h)

theorem ScheduleFor_chunks (l : List String) : ScheduleFor (chunks l) l := by
  rw [ScheduleFor]
  exact List.forall₂_same.mpr (fun x _ => List.Perm.refl x)

theorem checkerLoop_eq_checkerSched (probe : String → String)
    (domainsList : List String) (i : Nat) (output : GoMap) :
    checkerLoop probe domainsList i output =
      checkerSched probe (chunks (domainsList.drop i)) output := by
  rw [checkerLoop]
  by_cases hi : i < domainsList.length
  · rw [if_pos hi]
    have hdne : domainsList.drop i ≠ [] := by
      intro hc
      have := congrArg List.length hc
      simp at this
      omega
    rw [chunks_cons _ hdne, checkerSched]
    have hdd : (domainsList.drop i).drop concurrent =
        domainsList.drop (i + concurrent) := by
      rw [List.drop_drop]
    by_cases hlast : i + concurrent > domainsList.length
    · rw [if_pos hlast]
      have htake : (domainsList.drop i).take concurrent = domainsList.drop i := by
        apply List.take_of_length_le
        simp only [List.length_drop]
        omega
      rw [htake, checkerLoop_eq_checkerSched probe domainsList (i + concurrent),
        hdd]
    · rw [if_neg hlast]
      rw [checkerLoop_eq_checkerSched probe domainsList (i + concurrent), hdd]
  · rw [if_neg hi]
    have hd : domainsList.drop i = [] := by
      apply List.drop_eq_nil_of_le
      omega
    rw [hd, chunks_nil, checkerSched]
termination_by domainsList.length - i
decreasing_by
  all_goals simp only [concurrent] at *; omega

theorem checker_eq_checkerSched (probe : String → String) (l : List String) :
    checker probe l = checkerSched probe (chunks l) [] := by
  rw [checker, checkerLoop_eq_checkerSched, List.drop_zero]

theorem mapFind_checker (probe : String → String) (l : List String)
    (k : String) :
    mapFind (checker probe l) k =
      if k ∈ l then some (probe k) else none := by
  rw [checker_eq_checkerSched,
    mapFind_checkerSched probe (chunks l) l [] (ScheduleFor_chunks l) k]
  rfl

theorem mapKeys_nodup_checker (probe : String → String) (l : List String) :
    (mapKeys (checker probe l)).Nodup := by
  rw [checker_eq_checkerSched]
  exact mapKeys_nodup_checkerSched probe (chunks l) [] (by simp [mapKeys])

/-! ### Rounding lemmas -/

theorem roundHalfEven_close (num den : Int) (hden : 0 < den) :
    -den ≤ 2 * (num - roundHalfEven num den * den) ∧
      2 * (num - roundHalfEven num den * den) ≤ den := by
  have heq : den * Int.ediv num den + Int.emod num den = num :=
    Int.ediv_add_emod num den
  have h0 : 0 ≤ Int.emod num den := Int.emod_nonneg num (ne_of_gt hden)
  have h1 : Int.emod num den < den := Int.emod_lt_of_pos num hden
  rw [roundHalfEven]
  split
  · rw [mul_comm (Int.ediv num den) den]; constructor <;> omega
  · split
    · rw [add_mul, one_mul, mul_comm (Int.ediv num den) den]
      constructor <;> omega
    · split
      · rw [mul_comm (Int.ediv num den) den]; constructor <;> omega
      · rw [add_mul, one_mul, mul_comm (Int.ediv num den) den]
        constructor <;> omega

theorem roundHalfEven_tie_even (num den : Int)
    (htie : 2 * Int.emod num den = den) :
    Int.emod (roundHalfEven num den) 2 = 0 := by
  rw [roundHalfEven]
  split
  · omega
  · split
    · omega
    · split
      · assumption
      · have heqf : 2 * Int.ediv (Int.ediv num den) 2
            + Int.emod (Int.ediv num den) 2 = Int.ediv num den :=
          Int.ediv_add_emod (Int.ediv num den) 2
        have h0 : 0 ≤ Int.emod (Int.ediv num den) 2 :=
          Int.emod_nonneg _ (by norm_num)
        have h1 : Int.emod (Int.ediv num den) 2 < 2 :=
          Int.emod_lt_of_pos _ (by norm_num)
        have hstep : Int.ediv num den + 1
            = 2 * (Int.ediv (Int.ediv num den) 2 + 1) := by omega
        rw [hstep]; exact Int.mul_emod_right 2 _

/-! ### Chunk-structure lemmas -/

theorem chunks_flatten (l : List String) : (chunks l).flatten = l := by
  by_cases h : l = []
  · subst h; rw [chunks_nil]; rfl
  · rw [chunks_cons l h, List.flatten_cons, chunks_flatten (l.drop concurrent),
      List.take_append_drop]
termination_by l.length
decreasing_by
  simp only [concurrent, List.length_drop]
  cases l with
  | nil => exact absurd rfl h
  | cons a t => simp [List.length_cons]; omega

theorem chunks_dropLast_length (l : List String) :
    ∀ c ∈ (chunks l).dropLast, c.length = concurrent := by
  intro c hc
  by_cases h : l = []
  · subst h; rw [chunks_nil] at hc; simp at hc
  · rw [chunks_cons l h] at hc
    cases h2 : chunks (l.drop concurrent) with
    | nil => rw [h2] at hc; simp at hc
    | cons b t =>
      rw [h2] at hc
      rcases (List.mem_cons.mp (by simpa [List.dropLast] using hc)) with hc1 | hc1
      · subst hc1
        have hdne : l.drop concurrent ≠ [] := by
          intro hd
          rw [hd, chunks_nil] at h2
          exact List.cons_ne_nil _ _ h2.symm
        have hlen : concurrent ≤ l.length := by
          by_contra hlt
          exact hdne (List.drop_eq_nil_of_le (by omega))
        simp [List.length_take, Nat.min_eq_left hlen]
      · rw [← h2] at hc1
        exact chunks_dropLast_length (l.drop concurrent) c hc1
termination_by l.length
decreasing_by
  simp only [concurrent, List.length_drop]
  cases l with
  | nil => exact absurd rfl h
  | cons a t => simp [List.length_cons]; omega

theorem chunks_getLast_length (l : List String) :
    ∀ c ∈ (chunks l).getLast?, 1 ≤ c.length ∧ c.length ≤ concurrent := by
  intro c hc
  by_cases h : l = []
  · subst h; rw [chunks_nil] at hc; simp at hc
  · rw [chunks_cons l h] at hc
    cases h2 : chunks (l.drop concurrent) with
    | nil =>
      rw [h2, List.getLast?_singleton, Option.mem_some_iff] at hc
      subst hc
      have hpos : 0 < l.length := List.length_pos.mpr h
      constructor
      · simp only [List.length_take]
        simp only [concurrent]
        omega
      · simp only [List.length_take]
        omega
    | cons b t =>
      rw [h2, List.getLast?_cons_cons] at hc
      rw [← h2] at hc
      exact chunks_getLast_length (l.drop concurrent) c hc
termination_by l.length
decreasing_by
  simp only [concurrent, List.length_drop]
  cases l with
  | nil => exact absurd rfl h
  | cons a t => simp [List.length_cons]; omega

theorem chunks_small (l : List String) (h1 : l ≠ [])
    (h2 : l.length ≤ concurrent) : chunks l = [l] := by
  rw [chunks_cons l h1, List.take_of_length_le h2,
    List.drop_eq_nil_of_le h2, chunks_nil]

theorem mapFind_nil (k : String) : mapFind [] k = none := rfl

/-! ### Claims -/

/-- C6: `Ins` followed by `Retrieve` on the same key returns the inserted
value, overwriting any previously inserted entry for that key, and
`Retrieve` on a key that was never inserted returns the empty string
(the Go zero value). -/
theorem safeMap_ins_retrieve (m : SafeMap) (key value k : String)
    (h : k ∉ mapKeys m.v) :
    (m.Ins key value).Retrieve key = value ∧ m.Retrieve k = "" := by
  constructor
  · rw [SafeMap.Retrieve, mapFind_Ins, if_pos rfl, Option.getD_some]
  · have hnone : mapFind m.v k = none := by
      by_contra hc
      exact h ((mem_mapKeys_iff m.v k).mpr hc)
    rw [SafeMap.Retrieve, hnone, Option.getD_none]

/-- C6 witness: a concrete map with an existing binding of the key being
overwritten and an absent key read back. -/
theorem safeMap_ins_retrieve_witness :
    ("b" ∉ mapKeys (SafeMap.mk [("a", "1")]).v) ∧
    ((SafeMap.mk [("a", "1")]).Ins "a" "7").Retrieve "a" = "7" ∧
    (SafeMap.mk [("a", "1")]).Retrieve "b" = "" := by
  refine ⟨by decide, ?_⟩
  exact safeMap_ins_retrieve (SafeMap.mk [("a", "1")]) "a" "7" "b" (by decide)

/-- C9: `Ins` changes only the entry of its own key: the value `Retrieve`
returns for any other key is unchanged. -/
theorem safeMap_ins_frame (m : SafeMap) (key value k : String)
    (h : k ≠ key) :
    (m.Ins key value).Retrieve k = m.Retrieve k := by
  rw [SafeMap.Retrieve, SafeMap.Retrieve, mapFind_Ins, if_neg h]

/-- C9 witness: inserting under key "a" leaves the binding of "b" intact. -/
theorem safeMap_ins_frame_witness :
    ("b" : String) ≠ "a" ∧
    ((SafeMap.mk [("b", "2")]).Ins "a" "7").Retrieve "b"
      = (SafeMap.mk [("b", "2")]).Retrieve "b" :=
  ⟨by decide, safeMap_ins_frame (SafeMap.mk [("b", "2")]) "a" "7" "b" (by decide)⟩

/-- C4: on any dial/handshake failure `checkDomain` returns the error's
textual description as its result string; its return type is a plain
`String`, so no structured error ever reaches the caller. -/
theorem checkDomain_error_text (dial : String → Except String ConnState)
    (now : Int) (domain err : String)
    (h : dial (domain ++ ":443") = Except.error err) :
    checkDomain dial now domain = err := by
  simp [checkDomain, h]

/-- C4 witness: a dialer that always refuses the connection. -/
theorem checkDomain_error_text_witness :
    ((fun _ : String => (Except.error "dial tcp: connection refused" :
        Except String ConnState)) ("nosuchhost.example" ++ ":443")
      = Except.error "dial tcp: connection refused") ∧
    checkDomain (fun _ => Except.error "dial tcp: connection refused") 0
        "nosuchhost.example" = "dial tcp: connection refused" :=
  ⟨rfl, checkDomain_error_text _ 0 "nosuchhost.example" _ rfl⟩

/-- C3 counterexample: a certificate expiring exactly 36 hours (1.5 days)
after now.  Every float64 intermediate is exact here (36.0 hours, 1.5
days), and `FormatFloat(1.5, 'f', 0, 64)` yields "2" — round to nearest,
ties to even — whereas rounding toward zero (the claim) would yield "1". -/
theorem checkDomain_not_truncating :
    checkDomain
        (fun _ => Except.ok (ConnState.mk [Certificate.mk 129600000000000]))
        0 "example.com" = "2" ∧
      formatDaysTruncSpec 129600000000000 = "1" ∧ ("2" : String) ≠ "1" :=
  ⟨by decide, by decide, by decide⟩

/-- C3 (amended): on a successful handshake the result string is
`(certificate.notAfter - now) / 24h` formatted as a base-10 integer with
zero decimal places, rounded to the NEAREST integer with ties broken to
even (the rounding of `strconv.FormatFloat(_, 'f', 0, 64)`), not rounded
toward zero: the formatted day count `r` satisfies `|exact - r| ≤ 1/2`
(stated multiplied out over the nanosecond scale), and on an exact
half-day tie `r` is even. -/
theorem checkDomain_success_rounds_nearest
    (dial : String → Except String ConnState) (now : Int) (domain : String)
    (conn : ConnState) (cert : Certificate) (certs : List Certificate)
    (hdial : dial (domain ++ ":443") = Except.ok conn)
    (hchain : conn.peerCertificates = cert :: certs) :
    checkDomain dial now domain = formatFloatDays (cert.notAfter - now) ∧
    -nsPerDay ≤ 2 * ((cert.notAfter - now)
        - roundHalfEven (cert.notAfter - now) nsPerDay * nsPerDay) ∧
    2 * ((cert.notAfter - now)
        - roundHalfEven (cert.notAfter - now) nsPerDay * nsPerDay) ≤ nsPerDay ∧
    (2 * Int.emod (cert.notAfter - now) nsPerDay = nsPerDay →
      Int.emod (roundHalfEven (cert.notAfter - now) nsPerDay) 2 = 0) := by
  refine ⟨?_, (roundHalfEven_close _ _ (by norm_num [nsPerDay])).1,
    (roundHalfEven_close _ _ (by norm_num [nsPerDay])).2,
    fun htie => roundHalfEven_tie_even _ _ htie⟩
  simp [checkDomain, hdial, hchain]

/-- C3 (amended) witness: the 1.5-day certificate again; the hypotheses
hold by computation and the amended claim follows by the theorem. -/
theorem checkDomain_success_rounds_nearest_witness :
    ((fun _ : String => (Except.ok (ConnState.mk
          [Certificate.mk 129600000000000]) : Except String ConnState))
          ("example.com" ++ ":443")
      = Except.ok (ConnState.mk [Certificate.mk 129600000000000])) ∧
    ((ConnState.mk [Certificate.mk 129600000000000]).peerCertificates
      = Certificate.mk 129600000000000 :: []) ∧
    (checkDomain
        (fun _ => Except.ok (ConnState.mk [Certificate.mk 129600000000000]))
        0 "example.com"
      = formatFloatDays ((Certificate.mk 129600000000000).notAfter - 0) ∧
    -nsPerDay ≤ 2 * (((Certificate.mk 129600000000000).notAfter - 0)
        - roundHalfEven ((Certificate.mk 129600000000000).notAfter - 0)
            nsPerDay * nsPerDay) ∧
    2 * (((Certificate.mk 129600000000000).notAfter - 0)
        - roundHalfEven ((Certificate.mk 129600000000000).notAfter - 0)
            nsPerDay * nsPerDay) ≤ nsPerDay ∧
    (2 * Int.emod ((Certificate.mk 129600000000000).notAfter - 0) nsPerDay
        = nsPerDay →
      Int.emod (roundHalfEven ((Certificate.mk 129600000000000).notAfter - 0)
        nsPerDay) 2 = 0)) :=
  ⟨rfl, rfl, checkDomain_success_rounds_nearest _ 0 "example.com" _ _ [] rfl rfl⟩

/-- C8: a successful probe against a certificate whose expiry lies
exactly 30 days (720 hours) after now yields the result string "30". -/
theorem checkDomain_thirty_days
    (dial : String → Except String ConnState) (now : Int) (domain : String)
    (conn : ConnState) (certs : List Certificate)
    (hdial : dial (domain ++ ":443") = Except.ok conn)
    (hchain : conn.peerCertificates
      = Certificate.mk (now + 2592000000000000) :: certs) :
    checkDomain dial now domain = "30" := by
  simp only [checkDomain, hdial, hchain]
  have harith : now + 2592000000000000 - now = 2592000000000000 := by omega
  rw [harith]
  decide

/-- C8 witness: a stub dialer returning a certificate 30 days out from
`now = 0`. -/
theorem checkDomain_thirty_days_witness :
    ((fun _ : String => (Except.ok (ConnState.mk
          [Certificate.mk 2592000000000000]) : Except String ConnState))
          ("example.com" ++ ":443")
      = Except.ok (ConnState.mk [Certificate.mk 2592000000000000])) ∧
    ((ConnState.mk [Certificate.mk 2592000000000000]).peerCertificates
      = Certificate.mk ((0 : Int) + 2592000000000000) :: []) ∧
    checkDomain
        (fun _ => Except.ok (ConnState.mk [Certificate.mk 2592000000000000]))
        0 "example.com" = "30" := by
  refine ⟨rfl, by norm_num, ?_⟩
  exact checkDomain_thirty_days _ 0 "example.com" _ [] rfl (by norm_num)

/-- C1: under every goroutine completion order (`ScheduleFor`), the
checker's result map has key set exactly the set of distinct input
domains — one entry per requested domain, duplicates collapsed — and the
entry count is `min(L, distinct domain count)`. -/
theorem checker_key_set (probe : String → String) (l : List String)
    (sched : List (List String)) (h : ScheduleFor sched l) :
    (mapKeys (checkerSched probe sched [])).toFinset = l.toFinset ∧
    (checkerSched probe sched []).length = min l.length l.toFinset.card := by
  have hmem : ∀ k, k ∈ mapKeys (checkerSched probe sched []) ↔ k ∈ l := by
    intro k
    rw [mem_mapKeys_iff, mapFind_checkerSched probe sched l [] h k,
      mapFind_nil]
    by_cases hk : k ∈ l <;> simp [hk]
  have hnodup : (mapKeys (checkerSched probe sched [])).Nodup :=
    mapKeys_nodup_checkerSched probe sched [] (by simp [mapKeys])
  have hfin : (mapKeys (checkerSched probe sched [])).toFinset = l.toFinset := by
    ext k
    rw [List.mem_toFinset, List.mem_toFinset]
    exact hmem k
  refine ⟨hfin, ?_⟩
  have hlen : (checkerSched probe sched []).length
      = (mapKeys (checkerSched probe sched [])).length :=
    (List.length_map _ _).symm
  rw [hlen, ← List.toFinset_card_of_nodup hnodup, hfin,
    Nat.min_eq_right (List.toFinset_card_le l)]

/-- C1 witness: the duplicate-bearing input ["a", "a", "b"] under a
completion order different from input order; the map ends with 2 = min(3, 2)
entries keyed by the distinct domains. -/
theorem checker_key_set_witness :
    ScheduleFor [["b", "a", "a"]] ["a", "a", "b"] ∧
    ((mapKeys (checkerSched (fun d => d ++ "!") [["b", "a", "a"]] [])).toFinset
        = (["a", "a", "b"] : List String).toFinset ∧
      (checkerSched (fun d => d ++ "!") [["b", "a", "a"]] []).length
        = min (["a", "a", "b"] : List String).length
            (["a", "a", "b"] : List String).toFinset.card) := by
  have hs : ScheduleFor [["b", "a", "a"]] ["a", "a", "b"] := by
    rw [ScheduleFor, chunks_small _ (by decide) (by decide)]
    exact List.Forall₂.cons (by decide) List.Forall₂.nil
  exact ⟨hs, checker_key_set (fun d => d ++ "!") ["a", "a", "b"] _ hs⟩

/-- C2: the checker partitions its input into consecutive groups of size
exactly `concurrent` (10), the final group holding the remainder (1 to
`concurrent` domains), the groups concatenating back to the input in
order; and the loop is exactly the strictly sequential left fold of
`processBatch` over those groups — each group's barrier clears before
the next group starts. -/
theorem checker_partitions (probe : String → String) (l : List String) :
    (∀ c ∈ (chunks l).dropLast, c.length = concurrent) ∧
    (∀ c ∈ (chunks l).getLast?, 1 ≤ c.length ∧ c.length ≤ concurrent) ∧
    (chunks l).flatten = l ∧
    checker probe l = checkerSched probe (chunks l) [] :=
  ⟨chunks_dropLast_length l, chunks_getLast_length l, chunks_flatten l,
    checker_eq_checkerSched probe l⟩

/-- C2 witness: a 12-domain input, split 10 + 2. -/
theorem checker_partitions_witness :
    (∀ c ∈ (chunks ["d01", "d02", "d03", "d04", "d05", "d06", "d07", "d08",
        "d09", "d10", "d11", "d12"]).dropLast, c.length = concurrent) ∧
    (∀ c ∈ (chunks ["d01", "d02", "d03", "d04", "d05", "d06", "d07", "d08",
        "d09", "d10", "d11", "d12"]).getLast?,
      1 ≤ c.length ∧ c.length ≤ concurrent) ∧
    (chunks ["d01", "d02", "d03", "d04", "d05", "d06", "d07", "d08",
        "d09", "d10", "d11", "d12"]).flatten
      = ["d01", "d02", "d03", "d04", "d05", "d06", "d07", "d08",
        "d09", "d10", "d11", "d12"] ∧
    checker (fun d => d) ["d01", "d02", "d03", "d04", "d05", "d06", "d07",
        "d08", "d09", "d10", "d11", "d12"]
      = checkerSched (fun d => d) (chunks ["d01", "d02", "d03", "d04", "d05",
        "d06", "d07", "d08", "d09", "d10", "d11", "d12"]) [] :=
  checker_partitions (fun d => d) _

/-- C5: the empty input list yields the empty map, and zero probes are
launched: there are no groups at all, so the total number of goroutines
(one per group element) is zero. -/
theorem checker_empty (probe : String → String) :
    checker probe [] = [] ∧ chunks [] = [] ∧
      ((chunks []).map List.length).sum = 0 := by
  refine ⟨?_, chunks_nil, by rw [chunks_nil]; rfl⟩
  rw [checker, checkerLoop]
  simp

/-- C7: with a deterministic probe, two runs of the checker on the same
input — any two valid schedules, hence any two goroutine interleavings —
produce identical maps: same key set and same value for every key. -/
theorem checker_two_runs_equal (probe : String → String) (l : List String)
    (s1 s2 : List (List String))
    (h1 : ScheduleFor s1 l) (h2 : ScheduleFor s2 l) :
    (mapKeys (checkerSched probe s1 [])).toFinset
        = (mapKeys (checkerSched probe s2 [])).toFinset ∧
    ∀ k, mapFind (checkerSched probe s1 []) k
        = mapFind (checkerSched probe s2 []) k := by
  constructor
  · ext k
    rw [List.mem_toFinset, List.mem_toFinset, mem_mapKeys_iff,
      mem_mapKeys_iff, mapFind_checkerSched probe s1 l [] h1 k,
      mapFind_checkerSched probe s2 l [] h2 k]
  · intro k
    rw [mapFind_checkerSched probe s1 l [] h1 k,
      mapFind_checkerSched probe s2 l [] h2 k]

/-- C7 witness: two different completion orders of the same two-domain
batch. -/
theorem checker_two_runs_equal_witness :
    ScheduleFor [["a", "b"]] ["a", "b"] ∧ ScheduleFor [["b", "a"]] ["a", "b"] ∧
    ((mapKeys (checkerSched (fun d => d ++ "!") [["a", "b"]] [])).toFinset
        = (mapKeys (checkerSched (fun d => d ++ "!") [["b", "a"]] [])).toFinset ∧
      ∀ k, mapFind (checkerSched (fun d => d ++ "!") [["a", "b"]] []) k
        = mapFind (checkerSched (fun d => d ++ "!") [["b", "a"]] []) k) := by
  have hs1 : ScheduleFor [["a", "b"]] ["a", "b"] := by
    rw [ScheduleFor, chunks_small _ (by decide) (by decide)]
    exact List.Forall₂.cons (by decide) List.Forall₂.nil
  have hs2 : ScheduleFor [["b", "a"]] ["a", "b"] := by
    rw [ScheduleFor, chunks_small _ (by decide) (by decide)]
    exact List.Forall₂.cons (by decide) List.Forall₂.nil
  exact ⟨hs1, hs2,
    checker_two_runs_equal (fun d => d ++ "!") ["a", "b"] _ _ hs1 hs2⟩

/-- C10: with a deterministic probe the checker's result map does not
depend on the order of the input list: a permuted input yields an equal
map — same key set and same value for every key. -/
theorem checker_perm_input (probe : String → String) (l l2 : List String)
    (h : l.Perm l2) :
    (mapKeys (checker probe l)).toFinset
        = (mapKeys (checker probe l2)).toFinset ∧
    ∀ k, mapFind (checker probe l) k = mapFind (checker probe l2) k := by
  constructor
  · ext k
    rw [List.mem_toFinset, List.mem_toFinset, mem_mapKeys_iff,
      mem_mapKeys_iff, mapFind_checker, mapFind_checker]
    by_cases hk : k ∈ l
    · rw [if_pos hk, if_pos (h.mem_iff.mp hk)]
    · rw [if_neg hk, if_neg (fun hc => hk (h.mem_iff.mpr hc))]
  · intro k
    rw [mapFind_checker, mapFind_checker]
    by_cases hk : k ∈ l
    · rw [if_pos hk, if_pos (h.mem_iff.mp hk)]
    · rw [if_neg hk, if_neg (fun hc => hk (h.mem_iff.mpr hc))]

/-- C10 witness: the checker on ["a", "b"] and on its permutation
["b", "a"]. -/
theorem checker_perm_input_witness :
    (["a", "b"] : List String).Perm ["b", "a"] ∧
    ((mapKeys (checker (fun d => d ++ "!") ["a", "b"])).toFinset
        = (mapKeys (checker (fun d => d ++ "!") ["b", "a"])).toFinset ∧
      ∀ k, mapFind (checker (fun d => d ++ "!") ["a", "b"]) k
        = mapFind (checker (fun d => d ++ "!") ["b", "a"]) k) :=
  ⟨by decide, checker_perm_input (fun d => d ++ "!") ["a", "b"] ["b", "a"]
    (by decide)⟩
